import Mathlib

/-!
Verification of the f-streams-async core against its specification.

The development shallowly embeds the parts of the library that the
checked properties are about:

* the generic `Writer` wrapper (src/lib/writer.ts, `Writer.write`,
  `Writer.stop`) as a state machine over an explicit device function;
* the binary reader helper (src/lib/helpers/binary.ts: `readData`,
  `ensure`, `peek`, `unread`) over a list-of-chunks upstream;
* the binary writer helper (src/lib/helpers/binary.ts: `writeDate`,
  `flush`, `ensure`) with an explicit downstream log;
* the string device reader (src/lib/devices/string.ts);
* the core reader stop protocol, modelled from the spec (the reader
  module itself is not part of the sources being checked).

Buffers are modelled as `List Nat` (byte lists); asynchronous calls are
sequentialized, which is faithful because the library is single-threaded
and every caller serializes its pulls (at-most-one-live-read invariant).
-/

/-! ### Generic writer (src/lib/writer.ts)

`new Writer(write, stop?)` wraps a device `write` function.  The wrapper
keeps one flag `ended` and forwards calls to the device.  We model the
device as a deterministic function of its own call history: given the
list of values it has received so far and the incoming value, it either
succeeds (`none`) or throws an error (`some e`).  `none` as a written
value models `undefined`, i.e. the end marker. -/

/-- Outcome of a single `writer.write(data)` call: success, the
`invalid attempt to write after end` error, or an error thrown by the
wrapped device write function. -/
inductive WResult (E : Type) where
  | ok : WResult E
  | writeAfterEnd : WResult E
  | devErr : E → WResult E
deriving DecidableEq, Repr

/-- State of a generic `Writer`: the `ended` flag plus the log of values
that have been forwarded to the device write function (most recent
last).  The log stands for the device's private state. -/
structure WriterState (V E : Type) where
  ended : Bool
  calls : List (Option V)
deriving DecidableEq, Repr

/-- A device write function: decides, from its call history and the
incoming value, whether the call succeeds or throws. -/
def Dev (V E : Type) : Type := List (Option V) → Option V → Option E

/-- `Writer.write` from src/lib/writer.ts:
`undefined` (here `none`) marks the end: the device is called (with no
value) only if the writer has not ended yet, and `ended` is set to true
only if that device call returns (a device throw leaves `ended` false).
A plain value after the end throws `invalid attempt to write after end`
without calling the device; otherwise the value is forwarded. -/
def wwrite (dev : Dev V E) (s : WriterState V E) (data : Option V) :
    WResult E × WriterState V E :=
  match data with
  | none =>
    if s.ended then (WResult.ok, s)
    else
      match dev s.calls none with
      | some e => (WResult.devErr e, { s with calls := s.calls ++ [none] })
      | none => (WResult.ok, { ended := true, calls := s.calls ++ [none] })
  | some v =>
    if s.ended then (WResult.writeAfterEnd, s)
    else
      match dev s.calls (some v) with
      | some e => (WResult.devErr e, { s with calls := s.calls ++ [some v] })
      | none => (WResult.ok, { s with calls := s.calls ++ [some v] })

/-- Runs a sequence of `write` calls, collecting the outcomes. -/
def runWrites (dev : Dev V E) : WriterState V E → List (Option V) →
    List (WResult E) × WriterState V E
  | s, [] => ([], s)
  | s, d :: ds =>
    let p := wwrite dev s d
    let q := runWrites dev p.2 ds
    (p.1 :: q.1, q.2)

/-- The default `Writer.stop(arg)` from src/lib/writer.ts: it performs
`write(undefined)` and ignores its argument entirely. -/
def wstop (dev : Dev V E) (s : WriterState V E) (_arg : A) :
    WResult E × WriterState V E :=
  wwrite dev s none

/-- A writer that has ended is frozen: any further `write` leaves the
state untouched and returns `ok` for the end marker and
`writeAfterEnd` for a value. -/
theorem wwrite_ended (dev : Dev V E) (s : WriterState V E) (d : Option V)
    (h : s.ended = true) :
    wwrite dev s d =
      ((match d with | none => WResult.ok | some _ => WResult.writeAfterEnd), s) := by
  cases d <;> simp [wwrite, h]

/-- If `write(undefined)` returns without error, the writer is ended. -/
theorem ended_of_end_ok (dev : Dev V E) (s : WriterState V E)
    (h : (wwrite dev s none).1 = WResult.ok) :
    (wwrite dev s none).2.ended = true := by
  by_cases hs : s.ended = true
  · simp [wwrite, hs]
  · simp only [Bool.not_eq_true] at hs
    simp only [wwrite, hs, if_false] at h ⊢
    cases hdev : dev s.calls none <;> simp [hdev] at h ⊢

/-- An ended writer stays in exactly the same state under any sequence
of `write` calls. -/
theorem runWrites_ended (dev : Dev V E) (s : WriterState V E)
    (h : s.ended = true) (ds : List (Option V)) :
    (runWrites dev s ds).2 = s := by
  induction ds with
  | nil => rfl
  | cons d ds ih =>
    simp only [runWrites]
    rw [wwrite_ended dev s d h]
    exact ih

/-! ### Writer claim theorems -/

/-- C1: once `write(end)` has completed on a writer, every subsequent
`write(v)` with `v ≠ end` fails with the write-after-end error, no
matter how many writes preceded the end and no matter which further
calls are interleaved. -/
theorem writer_write_after_end_fails (dev : Dev V E) (s : WriterState V E)
    (h : (wwrite dev s none).1 = WResult.ok) (ds : List (Option V)) (v : V) :
    (wwrite dev (runWrites dev (wwrite dev s none).2 ds).2 (some v)).1 =
      WResult.writeAfterEnd := by
  have hend := ended_of_end_ok dev s h
  rw [runWrites_ended dev _ hend ds, wwrite_ended dev _ (some v) hend]

/-- Concrete run of `writer_write_after_end_fails`: a plain device that
never throws, two preceding writes, then end, then a value. -/
theorem writer_write_after_end_fails_witness :
    (wwrite (fun _ _ => (none : Option Nat)) ⟨false, [some 1, some 2]⟩ none).1 =
        WResult.ok ∧
    (wwrite (fun _ _ => (none : Option Nat))
        (runWrites (fun _ _ => (none : Option Nat))
          (wwrite (fun _ _ => (none : Option Nat)) ⟨false, [some 1, some 2]⟩ none).2
          [none, some 5]).2
        (some 9)).1 = WResult.writeAfterEnd :=
  ⟨by decide,
    writer_write_after_end_fails (fun _ _ => (none : Option Nat))
      ⟨false, [some 1, some 2]⟩ (by decide) [none, some 5] 9⟩

/-- C9: on a writer that has already ended, any number of repeated
`write(end)` calls is a successful no-op: every call returns `ok`, the
state (including the device call log, hence the device itself) is
untouched, and the writer remains ended. -/
theorem writer_end_idempotent (dev : Dev V E) (s : WriterState V E)
    (h : s.ended = true) (k : Nat) :
    runWrites dev s (List.replicate k none) = (List.replicate k WResult.ok, s) := by
  induction k with
  | zero => rfl
  | succ n ih =>
    simp only [List.replicate_succ, runWrites]
    rw [wwrite_ended dev s none h, ih]

/-- Concrete run of `writer_end_idempotent`: three repeated end writes
on an ended writer. -/
theorem writer_end_idempotent_witness :
    runWrites (fun _ _ => (none : Option Nat))
        (⟨true, [some 4, none]⟩ : WriterState Nat Nat) (List.replicate 3 none) =
      (List.replicate 3 WResult.ok, ⟨true, [some 4, none]⟩) :=
  writer_end_idempotent (fun _ _ => (none : Option Nat)) ⟨true, [some 4, none]⟩ rfl 3

/-- C7: a writer built without a custom stop function ignores the stop
argument completely: `stop(arg)` is exactly `write(end)` for every
`arg` (including an error argument), and when it returns successfully
the writer has ended normally. -/
theorem writer_default_stop_is_end (dev : Dev V E) (s : WriterState V E)
    (a b : A) :
    wstop dev s a = wwrite dev s none ∧
    wstop dev s a = wstop dev s b ∧
    ((wstop dev s a).1 = WResult.ok → (wstop dev s a).2.ended = true) :=
  ⟨rfl, rfl, fun h => ended_of_end_ok dev s h⟩

/-- Concrete run of `writer_default_stop_is_end`: stopping with an
error argument behaves like `write(end)` and ends the writer. -/
theorem writer_default_stop_is_end_witness :
    wstop (fun _ _ => (none : Option Nat)) (⟨false, []⟩ : WriterState Nat Nat) 77 =
      wwrite (fun _ _ => (none : Option Nat)) ⟨false, []⟩ none ∧
    (wstop (fun _ _ => (none : Option Nat)) (⟨false, []⟩ : WriterState Nat Nat) 77).2.ended =
      true :=
  ⟨(writer_default_stop_is_end (fun _ _ => (none : Option Nat)) ⟨false, []⟩ 77 0).1,
    (writer_default_stop_is_end (fun _ _ => (none : Option Nat)) ⟨false, []⟩ 77 0).2.2
      (by decide)⟩

/-- A device whose write function throws error `7` on its very first
call and succeeds afterwards (a transient I/O error). -/
def devFail1 : Dev Nat Nat := fun calls _ => if calls.length = 0 then some 7 else none

/-- C5 counterexample: the writer does not latch device errors.  With a
device that throws on its first call only, the first `write` fails with
that device error but the very next `write` succeeds — contradicting
"the writer stays in an errored state and every further write call
raises that same error". -/
theorem writer_error_latch_counterexample :
    (wwrite devFail1 ⟨false, []⟩ (some 1)).1 = WResult.devErr 7 ∧
    (wwrite devFail1 (wwrite devFail1 ⟨false, []⟩ (some 1)).2 (some 2)).1 =
      WResult.ok := by
  decide

/-- C5 (amended): only the write-after-end failure is persistent: once a
value write fails with `writeAfterEnd`, every further value write from
the resulting state fails with `writeAfterEnd` again.  A device error
does not put the writer in an errored state: the `ended` flag is
unchanged, so the next write is forwarded to the device again and its
outcome is whatever the device decides. -/
theorem writer_error_not_latched (dev : Dev V E) (s : WriterState V E)
    (v w : V) (e : E) :
    ((wwrite dev s (some v)).1 = WResult.writeAfterEnd →
      (wwrite dev (wwrite dev s (some v)).2 (some w)).1 = WResult.writeAfterEnd) ∧
    ((wwrite dev s (some v)).1 = WResult.devErr e →
      (wwrite dev s (some v)).2.ended = s.ended) := by
  constructor
  · intro h
    by_cases hs : s.ended = true
    · rw [wwrite_ended dev s (some v) hs, wwrite_ended dev s (some w) hs]
    · simp only [Bool.not_eq_true] at hs
      simp only [wwrite, hs, if_false] at h
      cases hdev : dev s.calls (some v) <;> simp [hdev] at h
  · intro h
    by_cases hs : s.ended = true
    · rw [wwrite_ended dev s (some v) hs]
    · simp only [Bool.not_eq_true] at hs
      simp only [wwrite, hs, if_false] at h ⊢
      cases hdev : dev s.calls (some v) <;> simp [hdev] at h ⊢

/-- Concrete run of `writer_error_not_latched`: after a write-after-end
failure the next value write fails the same way. -/
theorem writer_error_not_latched_witness :
    (wwrite (fun _ _ => (none : Option Nat))
        ((wwrite (fun _ _ => (none : Option Nat))
            (⟨true, []⟩ : WriterState Nat Nat) (some 1)).2) (some 2)).1 =
      WResult.writeAfterEnd :=
  (writer_error_not_latched (fun _ _ => (none : Option Nat)) ⟨true, []⟩ 1 2 0).1
    (by decide)

/-! ### Core reader stop protocol

The core reader module (src/lib/reader.ts) is not among the sources
being checked; only its documentation (src/lib/reader.md) and its
callers are.  The stop protocol is therefore modelled from the spec. -/

/-- Stop reason at the boundary: absence of a reason (`None`), the
silent-propagate sentinel (`Silent`), or an error payload (`Err(e)`). -/
inductive StopArg (E : Type) where
  | noArg : StopArg E
  | silent : StopArg E
  | err : E → StopArg E
deriving DecidableEq, Repr

/-- Modelled from the spec: the state of a core reader (src/lib/reader.ts
is missing from the sources).  A reader owns a source of pending values
and, per spec §3 ("Stop-idempotence", "No-resurrection"), a stop reason
recorded by the first `stop` call. -/
structure SReader (T E : Type) where
  queue : List T
  stopped : Option (StopArg E)
deriving DecidableEq, Repr

/-- Modelled from the spec: `stop` may be called any number of times;
only the first call takes effect (spec §3 invariant 3). -/
def SReader.stop (r : SReader T E) (a : StopArg E) : SReader T E :=
  match r.stopped with
  | some _ => r
  | none => { r with stopped := some a }

/-- Modelled from the spec: `read` yields the next value or the end
sentinel; after `stop(r)` it must not return further values: it returns
end for `None`/`Silent` and raises `e` for `Err(e)` (spec §3 invariant 4,
§8 "after `R.stop(r)`..."). -/
def SReader.read (r : SReader T E) : Except E (Option T) × SReader T E :=
  match r.stopped with
  | some (StopArg.err e) => (Except.error e, r)
  | some _ => (Except.ok none, r)
  | none =>
    match r.queue with
    | [] => (Except.ok none, r)
    | v :: rest => (Except.ok (some v), { r with queue := rest })

/-- Outcomes of `k` successive `read` calls. -/
def sreads (r : SReader T E) : Nat → List (Except E (Option T))
  | 0 => []
  | k + 1 =>
    let p := SReader.read r
    p.1 :: sreads p.2 k

/-- The read outcome dictated by a recorded stop reason: end for
`None`/`Silent`, the error for `Err(e)`. -/
def stopOutcome (a : StopArg E) : Except E (Option T) :=
  match a with
  | StopArg.err e => Except.error e
  | _ => Except.ok none

/-- A stopped reader is frozen by `read`. -/
theorem sread_stopped (r : SReader T E) (a : StopArg E)
    (h : r.stopped = some a) :
    SReader.read r = (stopOutcome a, r) := by
  cases a <;> simp [SReader.read, stopOutcome, h]

/-- C2: after `stop(r)` on an active reader, every subsequent `read`
yields the end sentinel when the reason is `None` or `Silent` and
raises `e` when it is `Err(e)`; in particular no further values are
ever returned. -/
theorem reader_stop_no_resurrection (r : SReader T E) (a : StopArg E)
    (h : r.stopped = none) (k : Nat) :
    ((a = StopArg.noArg ∨ a = StopArg.silent) →
      sreads (r.stop a) k = List.replicate k (Except.ok none)) ∧
    (∀ e, a = StopArg.err e →
      sreads (r.stop a) k = List.replicate k (Except.error e)) := by
  have hstop : r.stop a = { r with stopped := some a } := by
    simp [SReader.stop, h]
  have hread : SReader.read { r with stopped := some a } =
      (stopOutcome a, { r with stopped := some a }) :=
    sread_stopped _ a rfl
  have key : ∀ k : Nat, sreads ({ r with stopped := some a } : SReader T E) k =
      List.replicate k (stopOutcome a) := by
    intro k
    induction k with
    | zero => rfl
    | succ n ih =>
      simp only [sreads, hread, ih, List.replicate_succ]
  constructor
  · rintro (rfl | rfl) <;> rw [hstop, key k] <;> rfl
  · rintro e rfl
    rw [hstop, key k]
    rfl

/-- Concrete run of `reader_stop_no_resurrection`: a reader with two
queued values, stopped silently, read three times. -/
theorem reader_stop_no_resurrection_witness :
    sreads ((⟨[10, 20], none⟩ : SReader Nat Nat).stop StopArg.silent) 3 =
      List.replicate 3 (Except.ok none) :=
  (reader_stop_no_resurrection ⟨[10, 20], none⟩ StopArg.silent rfl 3).1 (Or.inr rfl)

/-! ### String device reader (src/lib/devices/string.ts)

`stringReader(text, options)` keeps a position `pos`; each `read`
returns `undefined` once `pos >= text.length`, and otherwise returns
`text.substring(pos, pos + len)` and advances `pos` by `len`, where
`len` is the configured chunk size. -/

/-- One `read()` of the string device reader: the emitted chunk (or
end) and the new position. -/
def stringReadStep (text : List Char) (n : Nat) (pos : Nat) :
    Option (List Char) × Nat :=
  if text.length ≤ pos then (none, pos)
  else ((text.drop pos).take n, pos + n)

/-- `opts.chunkSize || 1024`: a missing (or zero) chunk size falls back
to the default 1024. -/
def defaultChunkSize (o : Option Nat) : Nat :=
  match o with
  | none => 1024
  | some k => if k = 0 then 1024 else k

/-- All chunks emitted by repeatedly calling `stringReadStep`, with
explicit fuel (one unit per emitted chunk). -/
def chunksFuel (text : List Char) (n : Nat) : Nat → Nat → List (List Char)
  | 0, _ => []
  | fuel + 1, pos =>
    match stringReadStep text n pos with
    | (none, _) => []
    | (some c, next) => c :: chunksFuel text n fuel next

/-- The full chunk sequence produced by `stringReader` from position 0.
`text.length` units of fuel are enough for any positive chunk size. -/
def stringChunks (text : List Char) (n : Nat) : List (List Char) :=
  chunksFuel text n text.length 0

/-- Past the end of the text, the chunk sequence is empty. -/
theorem chunksFuel_eq_nil (text : List Char) (n fuel pos : Nat)
    (h : text.length ≤ pos) : chunksFuel text n fuel pos = [] := by
  cases fuel <;> simp [chunksFuel, stringReadStep, h]

/-- With positive chunk size and enough fuel, the emitted chunks
concatenate to the not-yet-consumed suffix of the text. -/
theorem chunksFuel_join (text : List Char) (n : Nat) (hn : 0 < n) :
    ∀ fuel pos, text.length - pos ≤ fuel →
      (chunksFuel text n fuel pos).flatten = text.drop pos := by
  intro fuel
  induction fuel with
  | zero =>
    intro pos h
    have hle : text.length ≤ pos := by omega
    simp [chunksFuel, List.drop_eq_nil_of_le hle]
  | succ f ih =>
    intro pos h
    by_cases hpos : text.length ≤ pos
    · simp [chunksFuel, stringReadStep, hpos, List.drop_eq_nil_of_le hpos]
    · have hlt : pos < text.length := by omega
      have hf : text.length - (pos + n) ≤ f := by omega
      simp only [chunksFuel, stringReadStep, if_neg hpos, List.flatten_cons, ih (pos + n) hf]
      have hdrop : (text.drop pos).drop n = text.drop (pos + n) := by
        rw [List.drop_drop]
      rw [← hdrop, List.take_append_drop]

/-- Every chunk except possibly the last has length exactly `n`. -/
theorem chunksFuel_dropLast_length (text : List Char) (n : Nat) :
    ∀ fuel pos, ∀ c ∈ (chunksFuel text n fuel pos).dropLast, c.length = n := by
  intro fuel
  induction fuel with
  | zero => intro pos c hc; simp [chunksFuel] at hc
  | succ f ih =>
    intro pos c hc
    by_cases hpos : text.length ≤ pos
    · simp [chunksFuel, stringReadStep, hpos] at hc
    · simp only [chunksFuel, stringReadStep, if_neg hpos] at hc
      by_cases hrest : chunksFuel text n f (pos + n) = []
      · simp [hrest] at hc
      · rw [List.dropLast_cons_of_ne_nil hrest] at hc
        rcases List.mem_cons.mp hc with rfl | hmem
        · have hnext : pos + n < text.length := by
            by_contra hge
            exact hrest (chunksFuel_eq_nil text n f (pos + n) (by omega))
          simp only [List.length_take, List.length_drop]
          omega
        · exact ih (pos + n) c hmem

/-- C8: for every text and positive chunk size `n`, the string device
reader emits chunks whose in-order concatenation is the whole text,
every chunk except possibly the last has length exactly `n`, once the
position has passed the end every further `read` returns end without
moving the position, and an omitted chunk-size option defaults to
1024. -/
theorem string_reader_chunks (text : List Char) (n : Nat) (hn : 0 < n) :
    (stringChunks text n).flatten = text ∧
    (∀ c ∈ (stringChunks text n).dropLast, c.length = n) ∧
    (∀ pos, text.length ≤ pos → stringReadStep text n pos = (none, pos)) ∧
    defaultChunkSize none = 1024 := by
  refine ⟨?_, ?_, ?_, rfl⟩
  · have := chunksFuel_join text n hn text.length 0 (by omega)
    simpa [stringChunks] using this
  · exact fun c hc => chunksFuel_dropLast_length text n text.length 0 c hc
  · intro pos hpos
    simp [stringReadStep, hpos]

/-- Concrete run of `string_reader_chunks`: a five-character text with
chunk size 2 yields chunks ab, cd, e. -/
theorem string_reader_chunks_witness :
    (stringChunks [ 'a', 'b', 'c', 'd', 'e' ] 2).flatten =
        [ 'a', 'b', 'c', 'd', 'e' ] ∧
    stringReadStep [ 'a', 'b', 'c', 'd', 'e' ] 2 6 = (none, 6) :=
  ⟨(string_reader_chunks [ 'a', 'b', 'c', 'd', 'e' ] 2 (by decide)).1,
    (string_reader_chunks [ 'a', 'b', 'c', 'd', 'e' ] 2 (by decide)).2.2.1 6
      (by decide)⟩

/-! ### Binary reader helper (src/lib/helpers/binary.ts)

The binary reader wraps an upstream Buffer-chunk reader (modelled as the
list of chunks it will still deliver; an exhausted list keeps returning
end, as the string/buffer devices do).  Its own state is the sliding
buffer `buf` (`undefined` is `none`), the read position `pos` inside it,
and the upstream. -/

/-- State of the binary `Reader`: sliding buffer, position, remaining
upstream chunks.  The constructor starts with `buf = Buffer.alloc(0)`
and `pos = 0`. -/
structure BinState (α : Type) where
  buf : Option (List α)
  pos : Nat
  ups : List (List α)
deriving DecidableEq, Repr

/-- Fresh binary reader over the given upstream chunks. -/
def binInit (ups : List (List α)) : BinState α := ⟨some [], 0, ups⟩

/-- The `while (got < len)` loop inside `Reader.ensure`: keeps pulling
upstream chunks into `bufs` while fewer than `len` bytes are gathered.
Returns the gathered chunk list, the remaining upstream, and whether
the `return 0` path was taken (upstream ended with nothing gathered). -/
def ensureLoop (len : Nat) : Nat → List (List α) → List (List α) →
    List (List α) × List (List α) × Bool
  | got, bufs, [] =>
    if got < len then (bufs, [], bufs.isEmpty) else (bufs, [], false)
  | got, bufs, c :: rest =>
    if got < len then ensureLoop len (got + c.length) (bufs ++ [c]) rest
    else (bufs, c :: rest, false)

/-- `Reader.ensure(len)` from src/lib/helpers/binary.ts: returns the
number of bytes made available (at most `len`) and the updated state.
Note the `return 0` path resets `pos` to 0 but leaves `buf` holding the
already-consumed bytes — this is the source of the end-stickiness bug
exposed below. -/
def ensure (s : BinState α) (len : Nat) : Nat × BinState α :=
  match s.buf with
  | none => (0, s)
  | some b =>
    if s.pos + len ≤ b.length then (len, s)
    else
      let got := b.length - s.pos
      let bufs := if got = 0 then [] else [b.drop s.pos]
      let r := ensureLoop len got bufs s.ups
      if r.2.2 then (0, { s with pos := 0, ups := r.2.1 })
      else
        let nb := r.1.flatten
        (min nb.length len, { buf := some nb, pos := 0, ups := r.2.1 })

/-- `Reader.readData(len, peekOnly)` for an explicit `len`: ensure `len`
bytes, return end if nothing could be gathered for a positive request,
otherwise slice the available bytes and (unless peeking) advance the
position. -/
def readDataLen (s : BinState α) (len : Nat) (peekOnly : Bool) :
    Option (List α) × BinState α :=
  match s.buf with
  | none => (none, s)
  | some _ =>
    let p := ensure s len
    let l := p.1
    let s1 := p.2
    if l = 0 ∧ 0 < len then (none, s1)
    else
      let b1 := s1.buf.getD []
      let result := (b1.drop s1.pos).take l
      (some result, if peekOnly then s1 else { s1 with pos := s1.pos + l })

/-- `Reader.readData` with the optional `len` argument: an omitted `len`
returns the rest of the current buffer, or pulls the next upstream
chunk whole. -/
def readData (s : BinState α) (len : Option Nat) (peekOnly : Bool) :
    Option (List α) × BinState α :=
  match s.buf with
  | none => (none, s)
  | some b =>
    match len with
    | some l => readDataLen s l peekOnly
    | none =>
      if s.pos < b.length then readDataLen s (b.length - s.pos) peekOnly
      else
        match s.ups with
        | [] => (none, { s with buf := none, pos := 0 })
        | c :: rest =>
          (some c, { buf := some c, pos := if peekOnly then 0 else c.length,
                     ups := rest })

/-- `Reader.peek(len)`: `readData` with the peek flag set. -/
def binPeek (s : BinState α) (len : Nat) : Option (List α) × BinState α :=
  readDataLen s len true

/-- `Reader.unread(len)`: succeeds (moving the position back) exactly
when `len <= pos`, otherwise throws (`none`) leaving the state as is. -/
def unread (s : BinState α) (len : Nat) : Option (BinState α) :=
  if len ≤ s.pos then some { s with pos := s.pos - len } else none

/-- C3: end is not sticky for `read(len)`.  Over a single upstream chunk
of one byte, `read(2)` first returns that byte and a second `read(2)`
returns end — but the `return 0` path of `ensure` has reset `pos` to 0
while leaving `buf` full, so a third `read(2)` returns the already
consumed byte again instead of end.  This contradicts the doc comment
of `readData` ("... and afterwards the call returns `undefined`"). -/
theorem binary_read_eof_not_sticky :
    readDataLen (binInit [[1]] : BinState Nat) 2 false =
      (some [1], ⟨some [1], 1, []⟩) ∧
    readDataLen (⟨some [1], 1, []⟩ : BinState Nat) 2 false =
      (none, ⟨some [1], 0, []⟩) ∧
    (readDataLen (⟨some [1], 0, []⟩ : BinState Nat) 2 false).1 = some [1] := by
  decide

/-- C4 counterexample: `unread` only checks `len <= pos`, not the size
of the last accepted read.  Reading 2 bytes and then 1 byte from a
4-byte chunk leaves `pos = 3`; the last accepted read returned a single
byte, yet `unread(3)` succeeds instead of raising. -/
theorem binary_unread_counterexample :
    readDataLen (binInit [[0, 1, 2, 3]] : BinState Nat) 2 false =
      (some [0, 1], ⟨some [0, 1, 2, 3], 2, []⟩) ∧
    readDataLen (⟨some [0, 1, 2, 3], 2, []⟩ : BinState Nat) 1 false =
      (some [2], ⟨some [0, 1, 2, 3], 3, []⟩) ∧
    unread (⟨some [0, 1, 2, 3], 3, []⟩ : BinState Nat) 3 =
      some ⟨some [0, 1, 2, 3], 0, []⟩ ∧
    1 < 3 := by
  decide

/-- The gather loop only reports the `return 0` path when the request
was not yet satisfied. -/
theorem ensureLoop_true_lt (len : Nat) :
    ∀ (ups bufs : List (List α)) (got : Nat),
      (ensureLoop len got bufs ups).2.2 = true → got < len := by
  intro ups
  induction ups with
  | nil =>
    intro bufs got h
    simp only [ensureLoop] at h
    by_cases hlt : got < len
    · exact hlt
    · simp [hlt] at h
  | cons c rest ih =>
    intro bufs got h
    simp only [ensureLoop] at h
    by_cases hlt : got < len
    · simp only [if_pos hlt] at h
      have := ih (bufs ++ [c]) (got + c.length) h
      omega
    · simp [hlt] at h

/-- Exit analysis of the gather loop, under the invariant that `got`
counts the gathered bytes: the `return 0` path happens only with an
empty gather list and exhausted upstream; otherwise the loop stops
either with at least `len` bytes gathered or with the upstream
exhausted. -/
theorem ensureLoop_spec (len : Nat) :
    ∀ (ups bufs : List (List α)) (got : Nat), got = bufs.flatten.length →
      ((ensureLoop len got bufs ups).2.2 = true →
        bufs = [] ∧ (ensureLoop len got bufs ups).1 = [] ∧
          (ensureLoop len got bufs ups).2.1 = []) ∧
      ((ensureLoop len got bufs ups).2.2 = false →
        (len ≤ (ensureLoop len got bufs ups).1.flatten.length ∨
          (ensureLoop len got bufs ups).2.1 = []) ∧
        (ensureLoop len got bufs ups).1.flatten.length =
          max got (ensureLoop len got bufs ups).1.flatten.length) := by
  intro ups
  induction ups with
  | nil =>
    intro bufs got hg
    by_cases hlt : got < len
    · constructor
      · intro h
        simp only [ensureLoop, if_pos hlt] at h ⊢
        have : bufs = [] := by
          cases bufs with
          | nil => rfl
          | cons x xs => simp at h
        simp [this]
      · intro h
        simp only [ensureLoop, if_pos hlt] at h ⊢
        refine ⟨Or.inr trivial, ?_⟩
        omega
    · constructor
      · intro h
        simp [ensureLoop, hlt] at h
      · intro _
        simp only [ensureLoop, if_neg hlt]
        refine ⟨Or.inr trivial, ?_⟩
        omega
  | cons c rest ih =>
    intro bufs got hg
    by_cases hlt : got < len
    · have hg2 : got + c.length = ((bufs ++ [c]).flatten).length := by
        simp [List.flatten_append, hg]
      have := ih (bufs ++ [c]) (got + c.length) hg2
      constructor
      · intro h
        simp only [ensureLoop, if_pos hlt] at h ⊢
        obtain ⟨hb, h1, h2⟩ := this.1 h
        simp at hb
      · intro h
        simp only [ensureLoop, if_pos hlt] at h ⊢
        obtain ⟨hd, hmax⟩ := this.2 h
        exact ⟨hd, by omega⟩
    · constructor
      · intro h
        simp [ensureLoop, hlt] at h
      · intro _
        simp only [ensureLoop, if_neg hlt]
        refine ⟨Or.inl ?_, ?_⟩ <;> omega

/-- After `ensure`, the sliding buffer is still present and holds at
least `pos + got` bytes, so the subsequent slice of `got` bytes is
fully backed. -/
theorem ensure_post (s : BinState α) (len : Nat) (b : List α)
    (hb : s.buf = some b) :
    ∃ b2, (ensure s len).2.buf = some b2 ∧
      (ensure s len).2.pos + (ensure s len).1 ≤ b2.length := by
  simp only [ensure, hb]
  by_cases hfast : s.pos + len ≤ b.length
  · simp only [if_pos hfast]
    exact ⟨b, hb, hfast⟩
  · simp only [if_neg hfast]
    by_cases hflag :
        (ensureLoop len (b.length - s.pos)
          (if b.length - s.pos = 0 then [] else [b.drop s.pos]) s.ups).2.2 = true
    · simp only [hflag, if_true]
      exact ⟨b, rfl, by omega⟩
    · simp only [Bool.not_eq_true] at hflag
      simp only [hflag, Bool.false_eq_true, if_false]
      exact ⟨_, rfl, by simp [Nat.min_le_left]⟩

/-- The initial gather list of `ensure` satisfies the byte-count
invariant of the loop. -/
theorem ensure_init_inv (b : List α) (pos : Nat) :
    b.length - pos =
      ((if b.length - pos = 0 then [] else [b.drop pos]) :
        List (List α)).flatten.length := by
  by_cases h0 : b.length - pos = 0 <;> simp [h0]


/-- `ensure` on a rewound buffer that already holds `len` bytes takes
the fast path. -/
theorem ensure_of_full (nb : List α) (ups : List (List α)) (len : Nat)
    (h : len ≤ nb.length) :
    ensure (⟨some nb, 0, ups⟩ : BinState α) len = (len, ⟨some nb, 0, ups⟩) := by
  simp only [ensure]
  rw [if_pos (by omega : 0 + len ≤ nb.length)]

/-- `ensure` on a rewound nonempty buffer with exhausted upstream and a
request larger than the buffer regathers exactly that buffer. -/
theorem ensure_of_short (nb : List α) (len : Nat) (hlt : nb.length < len)
    (h0 : nb.length ≠ 0) :
    ensure (⟨some nb, 0, []⟩ : BinState α) len =
      (nb.length, ⟨some nb, 0, []⟩) := by
  simp only [ensure]
  rw [if_neg (by omega : ¬(0 + len ≤ nb.length))]
  simp only [Nat.sub_zero, if_neg h0, List.drop_zero]
  have hloop : ensureLoop len nb.length [nb] ([] : List (List α)) =
      ([nb], [], false) := by
    simp [ensureLoop, hlt]
  rw [hloop]
  simp [Nat.min_eq_left (Nat.le_of_lt hlt)]

/-- Running `ensure` again on the state it produced returns the same
answer and leaves the state alone — provided the first run did not take
the `return 0` end path (on that path `ensure` is not idempotent, which
is exactly the end-stickiness bug). -/
theorem ensure_idem (s : BinState α) (len : Nat)
    (h : ¬((ensure s len).1 = 0 ∧ 0 < len)) :
    ensure (ensure s len).2 len = ensure s len := by
  cases hb : s.buf with
  | none =>
    have he : ensure s len = (0, s) := by simp [ensure, hb]
    have hlen : len = 0 := by
      rw [he] at h
      simp at h
      omega
    rw [he, hlen]
    simp [ensure, hb]
  | some b =>
    by_cases hfast : s.pos + len ≤ b.length
    · have he : ensure s len = (len, s) := by simp [ensure, hb, hfast]
      rw [he]
      exact he
    · by_cases hflag :
          (ensureLoop len (b.length - s.pos)
            (if b.length - s.pos = 0 then [] else [b.drop s.pos]) s.ups).2.2 = true
      · have hlt := ensureLoop_true_lt len s.ups _ _ hflag
        have he1 : (ensure s len).1 = 0 := by
          simp [ensure, hb, hfast, hflag]
        rw [he1] at h
        simp at h
        omega
      · obtain ⟨hd, _⟩ := (ensureLoop_spec len s.ups
          (if b.length - s.pos = 0 then [] else [b.drop s.pos])
          (b.length - s.pos) (ensure_init_inv b s.pos)).2
          (by simpa using hflag)
        have he : ensure s len =
            (min (ensureLoop len (b.length - s.pos)
                (if b.length - s.pos = 0 then [] else [b.drop s.pos])
                s.ups).1.flatten.length len,
              ⟨some (ensureLoop len (b.length - s.pos)
                (if b.length - s.pos = 0 then [] else [b.drop s.pos])
                s.ups).1.flatten, 0,
                (ensureLoop len (b.length - s.pos)
                  (if b.length - s.pos = 0 then [] else [b.drop s.pos])
                  s.ups).2.1⟩) := by
          simp only [ensure, hb, if_neg hfast]
          simp [hflag]
        rw [he]
        by_cases hge : len ≤ (ensureLoop len (b.length - s.pos)
            (if b.length - s.pos = 0 then [] else [b.drop s.pos])
            s.ups).1.flatten.length
        · rw [Nat.min_eq_right hge]
          exact ensure_of_full _ _ len hge
        · have hempty : (ensureLoop len (b.length - s.pos)
              (if b.length - s.pos = 0 then [] else [b.drop s.pos])
              s.ups).2.1 = [] := by
            rcases hd with hd | hd
            · exact absurd hd hge
            · exact hd
          have hlt2 : (ensureLoop len (b.length - s.pos)
              (if b.length - s.pos = 0 then [] else [b.drop s.pos])
              s.ups).1.flatten.length < len := by omega
          have hnb0 : (ensureLoop len (b.length - s.pos)
              (if b.length - s.pos = 0 then [] else [b.drop s.pos])
              s.ups).1.flatten.length ≠ 0 := by
            intro h0
            rw [he] at h
            exact h ⟨by rw [h0]; simp, by omega⟩
          rw [Nat.min_eq_left (Nat.le_of_lt hlt2), hempty]
          exact ensure_of_short _ len hlt2 hnb0

/-- Decomposition of a successful `readData(len)`: the request did not
hit the empty-gather path, the returned buffer is the slice of `got`
bytes at the ensured position, and the new state advances the position
by `got` (unless peeking). -/
theorem readDataLen_some (s : BinState α) (len : Nat) (peekOnly : Bool)
    (b : List α) (s1 : BinState α)
    (h : readDataLen s len peekOnly = (some b, s1)) :
    s.buf.isSome = true ∧
    ¬((ensure s len).1 = 0 ∧ 0 < len) ∧
    b = (((ensure s len).2.buf.getD []).drop (ensure s len).2.pos).take
      (ensure s len).1 ∧
    s1 = (if peekOnly then (ensure s len).2
      else { (ensure s len).2 with
             pos := (ensure s len).2.pos + (ensure s len).1 }) := by
  cases hb : s.buf with
  | none =>
    rw [readDataLen, hb] at h
    exact absurd h (by simp)
  | some b0 =>
    rw [readDataLen, hb] at h
    by_cases hcond : (ensure s len).1 = 0 ∧ 0 < len
    · rw [if_pos hcond] at h
      exact absurd h (by simp)
    · rw [if_neg hcond] at h
      obtain ⟨hb1, hs1⟩ := Prod.mk.injEq .. ▸ h
      refine ⟨by simp [hb], hcond, ?_, hs1.symm⟩
      exact (Option.some.injEq .. ▸ hb1).symm

/-- C4 (amended): `unread(k)` succeeds — rewinding the position by `k` —
exactly when `k` is at most the current read position inside the
sliding buffer, and raises (leaving the state unchanged) otherwise.
The position right after a successful `read` is at least the length of
the returned buffer (it can be strictly larger when earlier reads
consumed from the same sliding buffer), so unreading the last accepted
read always succeeds, but `unread` does not fail on every `k` larger
than the last read. -/
theorem binary_unread_pos_bound (s : BinState α) (len : Nat) (b : List α)
    (s1 : BinState α) (h : readDataLen s len false = (some b, s1)) :
    b.length ≤ s1.pos ∧
    (∀ k, k ≤ s1.pos → unread s1 k = some { s1 with pos := s1.pos - k }) ∧
    (∀ k, s1.pos < k → unread s1 k = none) := by
  obtain ⟨hb, hcond, hbval, hs1⟩ := readDataLen_some s len false b s1 h
  rw [if_neg (by simp)] at hs1
  obtain ⟨b0, hb0⟩ := Option.isSome_iff_exists.mp hb
  obtain ⟨b2, hb2, hle⟩ := ensure_post s len b0 hb0
  have hblen : b.length = (ensure s len).1 := by
    rw [hbval, hb2]
    simp only [Option.getD_some, List.length_take, List.length_drop]
    omega
  refine ⟨?_, ?_, ?_⟩
  · rw [hblen, hs1]
    simp
  · intro k hk
    simp [unread, hk]
  · intro k hk
    simp [unread, Nat.not_le.mpr hk]

/-- Concrete run of `binary_unread_pos_bound`: after reading 2 bytes of
a 4-byte chunk, unreading those 2 bytes rewinds the position to 0. -/
theorem binary_unread_pos_bound_witness :
    unread (⟨some [0, 1, 2, 3], 2, []⟩ : BinState Nat) 2 =
      some ⟨some [0, 1, 2, 3], 0, []⟩ :=
  (binary_unread_pos_bound (binInit [[0, 1, 2, 3]]) 2 [0, 1]
      ⟨some [0, 1, 2, 3], 2, []⟩ (by decide)).2.1 2 (by decide)

/-- C6: a successful `peek(len)` does not advance the read position and
the immediately following `read(len)` returns the same buffer. -/
theorem binary_peek_then_read (s : BinState α) (len : Nat) (b : List α)
    (s1 : BinState α) (h : binPeek s len = (some b, s1)) :
    (readDataLen s1 len false).1 = some b := by
  obtain ⟨hb, hcond, hbval, hs1⟩ := readDataLen_some s len true b s1 h
  rw [if_pos rfl] at hs1
  obtain ⟨b0, hb0⟩ := Option.isSome_iff_exists.mp hb
  obtain ⟨b2, hb2, _⟩ := ensure_post s len b0 hb0
  have hidem := ensure_idem s len hcond
  subst hs1
  rw [readDataLen, hb2]
  simp only [hidem]
  rw [if_neg hcond, hbval]

/-- Concrete run of `binary_peek_then_read`: peeking 3 bytes across two
upstream chunks, then reading 3 bytes, yields the same buffer. -/
theorem binary_peek_then_read_witness :
    (readDataLen (⟨some [0, 1, 2], 0, []⟩ : BinState Nat) 3 false).1 =
      some [0, 1, 2] :=
  binary_peek_then_read (binInit [[0, 1], [2]]) 3 [0, 1, 2]
    ⟨some [0, 1, 2], 0, []⟩ (by decide)

/-! ### Binary writer helper (src/lib/helpers/binary.ts)

The binary writer wraps a downstream buffer writer.  Its state is the
capacity of the intermediate buffer (`this.buf.length`), the bytes
currently pending in it (`this.buf[0..pos)`), and the log of values
passed to the wrapped writer (`none` is the end marker). -/

/-- State of the binary `Writer`: intermediate-buffer capacity, pending
bytes, and the log of downstream writes. -/
structure BWState where
  cap : Nat
  pending : List Nat
  down : List (Option (List Nat))
deriving DecidableEq, Repr

/-- Fresh binary writer; `bufSize` defaults to 16384 when absent or not
positive. -/
def bwInit (cap : Nat) : BWState := ⟨cap, [], []⟩

/-- `Writer.flush()`: pass the pending bytes downstream (if any) and
reset the buffer. -/
def bflush (s : BWState) : BWState :=
  if 0 < s.pending.length then
    { s with down := s.down ++ [some s.pending], pending := [] }
  else { s with pending := [] }

/-- `Writer.ensure(len)` (writer side): flush when the pending bytes
plus `len` overflow the buffer, and grow the buffer when `len` alone
exceeds it. -/
def bensure (s : BWState) (len : Nat) : BWState :=
  if s.cap < s.pending.length + len then
    let s1 := bflush s
    if s1.cap < len then { s1 with cap := len } else s1
  else s

/-- `Writer.writeDate(buf)`: an end marker or an oversized buffer is
flushed through and passed downstream directly; otherwise the bytes are
copied into the intermediate buffer. -/
def writeDate (s : BWState) (b : Option (List Nat)) : BWState :=
  match b with
  | none =>
    let s1 := bflush s
    { s1 with down := s1.down ++ [none] }
  | some data =>
    if s.cap < data.length then
      let s1 := bflush s
      { s1 with down := s1.down ++ [some data] }
    else
      let s1 := bensure s data.length
      { s1 with pending := s1.pending ++ data }

/-- Runs a sequence of buffer writes. -/
def runBW (s : BWState) : List (List Nat) → BWState
  | [] => s
  | b :: bs => runBW (writeDate s (some b)) bs

/-- The bytes delivered to the wrapped downstream writer, in order. -/
def downBytes (s : BWState) : List Nat := (s.down.filterMap id).flatten

/-- Flushing moves pending bytes downstream without losing or
reordering anything. -/
theorem bflush_bytes (s : BWState) :
    downBytes (bflush s) ++ (bflush s).pending = downBytes s ++ s.pending := by
  by_cases hp : 0 < s.pending.length
  · simp [bflush, downBytes, hp, List.filterMap_append]
  · have h0 : s.pending = [] := List.length_eq_zero.mp (by omega)
    simp [bflush, downBytes, h0]

/-- A flush leaves nothing pending. -/
theorem bflush_pending (s : BWState) : (bflush s).pending = [] := by
  by_cases hp : 0 < s.pending.length <;> simp [bflush, hp]

/-- `ensure` on the writer side never loses bytes either. -/
theorem bensure_bytes (s : BWState) (len : Nat) :
    downBytes (bensure s len) ++ (bensure s len).pending =
      downBytes s ++ s.pending := by
  by_cases hc : s.cap < s.pending.length + len
  · by_cases hg : (bflush s).cap < len <;>
      simp [bensure, hc, hg, downBytes, bflush_pending] <;>
      simpa [downBytes, bflush_pending] using bflush_bytes s
  · simp [bensure, hc]

/-- One buffer write preserves the delivered-plus-pending byte
sequence. -/
theorem writeDate_bytes (s : BWState) (data : List Nat) :
    downBytes (writeDate s (some data)) ++ (writeDate s (some data)).pending =
      downBytes s ++ s.pending ++ data := by
  by_cases hc : s.cap < data.length
  · simp only [writeDate, if_pos hc]
    have hdown : downBytes { bflush s with down := (bflush s).down ++ [some data] } =
        downBytes (bflush s) ++ data := by
      simp [downBytes, List.filterMap_append]
    have hpend : ({ bflush s with
        down := (bflush s).down ++ [some data] }).pending = (bflush s).pending := rfl
    rw [hdown, hpend, bflush_pending, List.append_nil]
    have hfb : downBytes (bflush s) = downBytes s ++ s.pending := by
      have hx := bflush_bytes s
      rwa [bflush_pending, List.append_nil] at hx
    rw [hfb]
  · simp only [writeDate, if_neg hc]
    have hdown : downBytes { bensure s data.length with
        pending := (bensure s data.length).pending ++ data } =
        downBytes (bensure s data.length) := rfl
    rw [hdown, ← List.append_assoc, bensure_bytes s data.length]

/-- Any run of buffer writes preserves the delivered-plus-pending byte
sequence. -/
theorem runBW_bytes (bs : List (List Nat)) :
    ∀ s : BWState, downBytes (runBW s bs) ++ (runBW s bs).pending =
      downBytes s ++ s.pending ++ bs.flatten := by
  induction bs with
  | nil => intro s; simp [runBW]
  | cons b rest ih =>
    intro s
    simp only [runBW, List.flatten_cons]
    rw [ih (writeDate s (some b)), writeDate_bytes s b]
    simp [List.append_assoc]

/-- C10: the binary writer delivers downstream exactly the
concatenation of all buffers written, in order — the final `write(end)`
flushes whatever is still pending and forwards the end marker; a buffer
that fits within the buffer capacity while nothing overflows is held
back (downstream untouched); a buffer larger than the capacity forces
a flush of pending bytes and is then passed downstream directly. -/
theorem binary_writer_concat (cap : Nat) (bs : List (List Nat)) :
    (downBytes (writeDate (runBW (bwInit cap) bs) none) = bs.flatten ∧
      (writeDate (runBW (bwInit cap) bs) none).pending = [] ∧
      (writeDate (runBW (bwInit cap) bs) none).down.getLast? = some none) ∧
    (∀ s : BWState, ∀ data : List Nat, s.pending.length + data.length ≤ s.cap →
      writeDate s (some data) = { s with pending := s.pending ++ data }) ∧
    (∀ s : BWState, ∀ data : List Nat, s.cap < data.length →
      (writeDate s (some data)).down = (bflush s).down ++ [some data] ∧
      (writeDate s (some data)).pending = []) := by
  refine ⟨⟨?_, ?_, ?_⟩, ?_, ?_⟩
  · have hrun := runBW_bytes bs (bwInit cap)
    have hend : downBytes (writeDate (runBW (bwInit cap) bs) none) =
        downBytes (runBW (bwInit cap) bs) ++ (runBW (bwInit cap) bs).pending := by
      simp only [writeDate]
      have hdown : downBytes { bflush (runBW (bwInit cap) bs) with
          down := (bflush (runBW (bwInit cap) bs)).down ++ [none] } =
          downBytes (bflush (runBW (bwInit cap) bs)) := by
        simp [downBytes, List.filterMap_append]
      rw [hdown]
      have hx := bflush_bytes (runBW (bwInit cap) bs)
      rwa [bflush_pending, List.append_nil] at hx
    rw [hend, hrun]
    simp [bwInit, downBytes]
  · simp only [writeDate]
    exact bflush_pending _
  · simp only [writeDate]
    simp
  · intro s data hfit
    have hc : ¬ s.cap < data.length := by omega
    simp only [writeDate, if_neg hc]
    have he : bensure s data.length = s := by
      simp [bensure, Nat.not_lt.mpr hfit]
    rw [he]
  · intro s data hbig
    simp only [writeDate, if_pos hbig]
    exact ⟨trivial, bflush_pending s⟩

/-- Concrete run of `binary_writer_concat`: capacity 2, writes of sizes
1, 3 (oversized) and 1, then end; downstream receives all five bytes
in order. -/
theorem binary_writer_concat_witness :
    downBytes (writeDate (runBW (bwInit 2) [[1], [2, 3, 4], [5]]) none) =
      [1, 2, 3, 4, 5] ∧
    writeDate (⟨2, [], []⟩ : BWState) (some [9]) = ⟨2, [9], []⟩ :=
  ⟨(binary_writer_concat 2 [[1], [2, 3, 4], [5]]).1.1,
    (binary_writer_concat 2 [[1], [2, 3, 4], [5]]).2.1 ⟨2, [], []⟩ [9] (by decide)⟩
